import Mathlib

/-!
Verification of the scoring core of `reposcore-py` (`src/reposcore/analyzer.py`,
class `RepoAnalyzer`).  The scorer is a pure computation from a map of
per-participant raw activity counters to a ranked, rate-annotated score map.
Python dicts (insertion-ordered, unique keys) are modelled as association
lists `List (String × _)`; the numeric values are `Nat` for the integer
counters and scores and `ℚ` for the percentage `rate`.
-/

namespace RepoScore

/-- Raw activity record of one participant: the seven counters created by
`collect_PRs_and_issues` (`p_enhancement`, `p_bug`, `p_documentation`,
`p_typo`, `i_enhancement`, `i_bug`, `i_documentation`), all non-negative. -/
structure Activities where
  p_enhancement : Nat
  p_bug : Nat
  p_documentation : Nat
  p_typo : Nat
  i_enhancement : Nat
  i_bug : Nat
  i_documentation : Nat
deriving DecidableEq

/-- The fixed weight table `RepoAnalyzer.SCORE_WEIGHTS`. -/
structure ScoreWeights where
  feat_bug_pr : Nat
  doc_pr : Nat
  typo_pr : Nat
  feat_bug_is : Nat
  doc_is : Nat

/-- `SCORE_WEIGHTS = {feat_bug_pr: 3, doc_pr: 2, typo_pr: 1, feat_bug_is: 2, doc_is: 1}`. -/
def SCORE_WEIGHTS : ScoreWeights :=
  { feat_bug_pr := 3, doc_pr := 2, typo_pr := 1, feat_bug_is := 2, doc_is := 1 }

/-- `_extract_pr_counts`: returns `(p_f, p_b, p_d, p_t, p_fb)` with
`p_fb = p_f + p_b`. -/
def extract_pr_counts (activities : Activities) : Nat × Nat × Nat × Nat × Nat :=
  let p_f := activities.p_enhancement
  let p_b := activities.p_bug
  let p_d := Activities.p_documentation activities
  let p_t := activities.p_typo
  (p_f, p_b, p_d, p_t, p_f + p_b)

/-- `_extract_issue_counts`: returns `(i_f, i_b, i_d, i_fb)` with
`i_fb = i_f + i_b`. -/
def extract_issue_counts (activities : Activities) : Nat × Nat × Nat × Nat :=
  let i_f := activities.i_enhancement
  let i_b := activities.i_bug
  let i_d := Activities.i_documentation activities
  (i_f, i_b, i_d, i_f + i_b)

/-- `_calculate_valid_counts`:
`p_valid = p_fb + min(p_d + p_t, 3 * max(p_fb, 1))`,
`i_valid = min(i_fb + i_d, 4 * p_valid)`. -/
def calculate_valid_counts (p_fb p_d p_t i_fb i_d : Nat) : Nat × Nat :=
  let p_valid := p_fb + min (p_d + p_t) (3 * max p_fb 1)
  let i_valid := min (i_fb + i_d) (4 * p_valid)
  (p_valid, i_valid)

/-- The guard of the zero-PR special case in `calculate_scores`
(line 383): `p_fb == 0 and p_d == 0 and p_t == 0 and (i_fb + i_d) > 0`. -/
def zero_pr_guard (p_fb p_d p_t i_fb i_d : Nat) : Prop :=
  p_fb = 0 ∧ p_d = 0 ∧ p_t = 0 ∧ 0 < i_fb + i_d

instance (p_fb p_d p_t i_fb i_d : Nat) :
    Decidable (zero_pr_guard p_fb p_d p_t i_fb i_d) :=
  inferInstanceAs (Decidable (p_fb = 0 ∧ p_d = 0 ∧ p_t = 0 ∧ 0 < i_fb + i_d))

/-- The `(p_valid, i_valid)` pair that `calculate_scores` actually uses for a
participant: the result of `_calculate_valid_counts`, overridden to
`p_valid = 1`, `i_valid = min(i_fb + i_d, 4 * p_valid)` when the zero-PR
special case (line 383–386) fires. -/
def effective_valid_counts (p_fb p_d p_t i_fb i_d : Nat) : Nat × Nat :=
  if zero_pr_guard p_fb p_d p_t i_fb i_d then
    (1, min (i_fb + i_d) (4 * 1))
  else
    calculate_valid_counts p_fb p_d p_t i_fb i_d

/-- `_calculate_adjusted_counts`: greedy attribution, feature/bug first,
then doc, then typo as the remainder (and feature/bug issue first, doc issue
as the remainder).  All quantities are non-negative, so Python's `-` agrees
with truncated `Nat` subtraction here. -/
def calculate_adjusted_counts (p_fb p_d p_valid i_fb i_valid : Nat) :
    Nat × Nat × Nat × Nat × Nat :=
  let p_fb_at := min p_fb p_valid
  let p_d_at := min p_d (p_valid - p_fb_at)
  let p_t_at := p_valid - p_fb_at - p_d_at
  let i_fb_at := min i_fb i_valid
  let i_d_at := i_valid - i_fb_at
  (p_fb_at, p_d_at, p_t_at, i_fb_at, i_d_at)

/-- `_calculate_total_score`: the weighted sum of the five attributed counts. -/
def calculate_total_score (p_fb_at p_d_at p_t_at i_fb_at i_d_at : Nat) : Nat :=
  SCORE_WEIGHTS.feat_bug_pr * p_fb_at +
  SCORE_WEIGHTS.doc_pr * p_d_at +
  SCORE_WEIGHTS.typo_pr * p_t_at +
  SCORE_WEIGHTS.feat_bug_is * i_fb_at +
  SCORE_WEIGHTS.doc_is * i_d_at

/-- One score entry as built per participant: the Python dict with keys
`"feat/bug PR"`, `"document PR"`, `"typo PR"`, `"feat/bug issue"`,
`"document issue"`, `"total"` (field names Lean-ified). -/
structure ScoreEntry where
  featBugPR : Nat
  documentPR : Nat
  typoPR : Nat
  featBugIssue : Nat
  documentIssue : Nat
  total : Nat
deriving DecidableEq

/-- `_create_score_dict`. -/
def create_score_dict (p_fb_at p_d_at p_t_at i_fb_at i_d_at total : Nat) :
    ScoreEntry :=
  { featBugPR := SCORE_WEIGHTS.feat_bug_pr * p_fb_at
    documentPR := SCORE_WEIGHTS.doc_pr * p_d_at
    typoPR := SCORE_WEIGHTS.typo_pr * p_t_at
    featBugIssue := SCORE_WEIGHTS.feat_bug_is * i_fb_at
    documentIssue := SCORE_WEIGHTS.doc_is * i_d_at
    total := total }

/-- The per-participant body of the loop in `calculate_scores`
(lines 372–422): extract counts, compute valid counts, take the zero-PR
special-case path (lines 383–411) when its guard holds, otherwise the
ordinary adjusted-count path. -/
def participant_entry (activities : Activities) : ScoreEntry :=
  match extract_pr_counts activities, extract_issue_counts activities with
  | (_, _, p_d, p_t, p_fb), (_, _, i_d, i_fb) =>
    if zero_pr_guard p_fb p_d p_t i_fb i_d then
      let i_valid := (effective_valid_counts p_fb p_d p_t i_fb i_d).2
      let p_t_at := if 0 < p_t then 1 else 0
      let i_fb_at := min i_fb i_valid
      let i_d_at := i_valid - i_fb_at
      let total := SCORE_WEIGHTS.feat_bug_is * i_fb_at +
        SCORE_WEIGHTS.doc_is * i_d_at +
        SCORE_WEIGHTS.typo_pr * p_t_at
      { featBugPR := 0, documentPR := 0, typoPR := 0,
        featBugIssue := SCORE_WEIGHTS.feat_bug_is * i_fb_at,
        documentIssue := SCORE_WEIGHTS.doc_is * i_d_at,
        total := total }
    else
      let p_valid := (effective_valid_counts p_fb p_d p_t i_fb i_d).1
      let i_valid := (effective_valid_counts p_fb p_d p_t i_fb i_d).2
      match calculate_adjusted_counts p_fb p_d p_valid i_fb i_valid with
      | (p_fb_at, p_d_at, p_t_at, i_fb_at, i_d_at) =>
        create_score_dict p_fb_at p_d_at p_t_at i_fb_at i_d_at
          (calculate_total_score p_fb_at p_d_at p_t_at i_fb_at i_d_at)

/-- `p_fb` of a participant, as produced by `_extract_pr_counts`. -/
def raw_p_fb (a : Activities) : Nat := a.p_enhancement + a.p_bug

/-- `p_d` of a participant, as produced by `_extract_pr_counts`. -/
def raw_p_d (a : Activities) : Nat := Activities.p_documentation a

/-- `p_t` of a participant, as produced by `_extract_pr_counts`. -/
def raw_p_t (a : Activities) : Nat := a.p_typo

/-- `i_fb` of a participant, as produced by `_extract_issue_counts`. -/
def raw_i_fb (a : Activities) : Nat := a.i_enhancement + a.i_bug

/-- `i_d` of a participant, as produced by `_extract_issue_counts`. -/
def raw_i_d (a : Activities) : Nat := Activities.i_documentation a

/-- The raw rate before rounding (`_finalize_scores`, line 337):
`(total / total_score_sum) * 100` when the grand total is positive, else `0`. -/
def rate_of (total_score_sum total : Nat) : ℚ :=
  if 0 < total_score_sum then ((total : ℚ) / (total_score_sum : ℚ)) * 100 else 0

/-- Python's `round(x, 1)`: round to one decimal place, i.e.
`⌊x * 10 + 1/2⌋ / 10` (written with the computable `Rat.floor`; exact
half-way ties are modelled as rounding up — Python uses banker's rounding on
floats there, and no property below depends on the tie direction). -/
def round1 (x : ℚ) : ℚ := ((Rat.floor (x * 10 + 1 / 2) : ℤ) : ℚ) / 10

/-- A score entry together with its `"rate"` field. -/
structure RatedEntry extends ScoreEntry where
  rate : ℚ
deriving DecidableEq

/-- A rated entry together with its `"rank"` field: the full output shape. -/
structure FinalEntry extends RatedEntry where
  rank : Nat
deriving DecidableEq

/-- Python dict update `m[k] = v`: if `k` is present its value is replaced in
place (position kept), otherwise the pair is appended. -/
def dict_insert {β : Type} (m : List (String × β)) (k : String) (v : β) :
    List (String × β) :=
  if m.any (fun p => p.1 = k) then
    m.map (fun p => if p.1 = k then (k, v) else p)
  else
    m ++ [(k, v)]

/-- Python `user_info.get(k, k)`. -/
def dict_get (m : List (String × String)) (k : String) : String :=
  match m.find? (fun p => p.1 = k) with
  | some p => p.2
  | none => k

/-- The `user_info` relabeling step of `_finalize_scores` (lines 341–346):
rebuild the dict keyed by display name; a falsy (`None`/empty) `user_info`
skips the step.  Collisions behave as Python dict insertion does. -/
def apply_user_info (user_info : List (String × String))
    (scores : List (String × RatedEntry)) : List (String × RatedEntry) :=
  if user_info.isEmpty then scores
  else scores.foldl (fun acc p => dict_insert acc (dict_get user_info p.1) p.2) []

/-- The ranking loop of `_finalize_scores` (lines 352–363), walking the
descending-sorted items with a position counter, the rank of the last
distinct total seen, and that total (`None` initially). -/
def assign_ranks : List (String × RatedEntry) → Nat → Nat → Option Nat →
    List (String × FinalEntry)
  | [], _, _, _ => []
  | (u, e) :: rest, rank_counter, current_rank, last_score =>
    let rc := rank_counter + 1
    let cr := if some e.total ≠ last_score then rc else current_rank
    let ls := if some e.total ≠ last_score then some e.total else last_score
    (u, ⟨e, cr⟩) :: assign_ranks rest rc cr ls

/-- The sort order of `_finalize_scores` line 349: descending by `total`
(`sorted(..., key=lambda x: x[1]["total"], reverse=True)`). -/
def rank_order (a b : String × RatedEntry) : Prop := b.2.total ≤ a.2.total

instance : DecidableRel rank_order := fun _ _ => Nat.decLe _ _

instance : IsTotal (String × RatedEntry) rank_order :=
  ⟨fun a b => Nat.le_total b.2.total a.2.total⟩

instance : IsTrans (String × RatedEntry) rank_order :=
  ⟨fun _ _ _ hab hbc => Nat.le_trans hbc hab⟩

/-- The rate-annotation pass of `_finalize_scores` (lines 335–338): each
entry gains its rounded `"rate"`. -/
def rated_list (scores : List (String × ScoreEntry)) (total_score_sum : Nat) :
    List (String × RatedEntry) :=
  scores.map fun p =>
    (p.1, RatedEntry.mk p.2 (round1 (rate_of total_score_sum p.2.total)))

/-- `_finalize_scores`: annotate each entry with its rounded rate, apply the
optional `user_info` relabeling, sort descending by `total` (Python's
`sorted` with `reverse=True` is a stable sort, and a stable sort's output is
uniquely determined, so the stable `insertionSort` models it exactly), and
assign competition ranks. -/
def finalize_scores (scores : List (String × ScoreEntry))
    (total_score_sum : Nat) (user_info : List (String × String)) :
    List (String × FinalEntry) :=
  assign_ranks
    (List.insertionSort rank_order
      (apply_user_info user_info (rated_list scores total_score_sum)))
    0 0 none

/-- The per-participant scoring loop of `calculate_scores` (the `scores`
dict before filtering, in insertion order). -/
def scored_list (participants : List (String × Activities)) :
    List (String × ScoreEntry) :=
  participants.map fun p => (p.1, participant_entry p.2)

/-- The running `total_score_sum` of `calculate_scores`: accumulated over
all participants, before the `min_contributions` filter. -/
def grand_total (participants : List (String × Activities)) : Nat :=
  ((scored_list participants).map fun p => p.2.total).sum

/-- The `min_contributions` filter of `calculate_scores` (lines 424–425):
applied only when the threshold is positive. -/
def filtered_scores (participants : List (String × Activities))
    (min_contributions : Nat) : List (String × ScoreEntry) :=
  if 0 < min_contributions then
    (scored_list participants).filter fun p => min_contributions ≤ p.2.total
  else scored_list participants

/-- `calculate_scores` (lines 367–427): score every participant, accumulate
the grand total over all of them, drop entries below `min_contributions`
when that threshold is positive, and finalize. -/
def calculate_scores (participants : List (String × Activities))
    (user_info : List (String × String)) (min_contributions : Nat) :
    List (String × FinalEntry) :=
  finalize_scores (filtered_scores participants min_contributions)
    (grand_total participants) user_info

/-- The output shape of `calculate_averages`: the five category keys plus
`"total"` and `"rate"` — and no `"rank"` key. -/
structure AverageEntry where
  featBugPR : ℚ
  documentPR : ℚ
  typoPR : ℚ
  featBugIssue : ℚ
  documentIssue : ℚ
  total : ℚ
  rate : ℚ
deriving DecidableEq

/-- `calculate_averages` (lines 433–456): a zero-filled entry for an empty
map, otherwise per-category arithmetic means plus the mean of the `rate`
fields. -/
def calculate_averages (scores : List (String × FinalEntry)) : AverageEntry :=
  if scores.isEmpty then
    { featBugPR := 0, documentPR := 0, typoPR := 0, featBugIssue := 0,
      documentIssue := 0, total := 0, rate := 0 }
  else
    let n : ℚ := scores.length
    { featBugPR := ((scores.map fun p => (p.2.featBugPR : ℚ)).sum) / n
      documentPR := ((scores.map fun p => (p.2.documentPR : ℚ)).sum) / n
      typoPR := ((scores.map fun p => (p.2.typoPR : ℚ)).sum) / n
      featBugIssue := ((scores.map fun p => (p.2.featBugIssue : ℚ)).sum) / n
      documentIssue := ((scores.map fun p => (p.2.documentIssue : ℚ)).sum) / n
      total := ((scores.map fun p => (p.2.total : ℚ)).sum) / n
      rate := if 0 < scores.length then
          ((scores.map fun p => p.2.rate).sum) / n
        else 0 }

/-! ## Theorems -/

/-- C5: for all non-negative raw counts, with `p_valid`/`i_valid` as computed
by `_calculate_valid_counts`, the attributed counts returned by
`_calculate_adjusted_counts` satisfy
`p_fb_at + p_d_at + p_t_at = p_valid` and `i_fb_at + i_d_at = i_valid`. -/
theorem adjusted_counts_sum (p_fb p_d p_t i_fb i_d : Nat) :
    (calculate_adjusted_counts p_fb p_d
        (calculate_valid_counts p_fb p_d p_t i_fb i_d).1 i_fb
        (calculate_valid_counts p_fb p_d p_t i_fb i_d).2).1 +
      (calculate_adjusted_counts p_fb p_d
        (calculate_valid_counts p_fb p_d p_t i_fb i_d).1 i_fb
        (calculate_valid_counts p_fb p_d p_t i_fb i_d).2).2.1 +
      (calculate_adjusted_counts p_fb p_d
        (calculate_valid_counts p_fb p_d p_t i_fb i_d).1 i_fb
        (calculate_valid_counts p_fb p_d p_t i_fb i_d).2).2.2.1 =
      (calculate_valid_counts p_fb p_d p_t i_fb i_d).1 ∧
    (calculate_adjusted_counts p_fb p_d
        (calculate_valid_counts p_fb p_d p_t i_fb i_d).1 i_fb
        (calculate_valid_counts p_fb p_d p_t i_fb i_d).2).2.2.2.1 +
      (calculate_adjusted_counts p_fb p_d
        (calculate_valid_counts p_fb p_d p_t i_fb i_d).1 i_fb
        (calculate_valid_counts p_fb p_d p_t i_fb i_d).2).2.2.2.2 =
      (calculate_valid_counts p_fb p_d p_t i_fb i_d).2 := by
  simp only [calculate_valid_counts, calculate_adjusted_counts]
  omega

/-- C3 counterexample: a participant with a single feature issue and no PR
activity at all hits the zero-PR special case of `calculate_scores`, whose
`p_valid` is set to `1`, strictly exceeding `p_fb + p_d + p_t = 0`. -/
theorem p_valid_override_exceeds_raw :
    ¬ ((effective_valid_counts 0 0 0 1 0).1 ≤ 0 + 0 + 0) := by
  decide

/-- C3 amended: the `(p_valid, i_valid)` returned by
`_calculate_valid_counts` satisfies all three bounds
(`p_valid ≤ p_fb + p_d + p_t`, `i_valid ≤ i_fb + i_d`,
`i_valid ≤ 4 * p_valid`); the pair actually used by `calculate_scores`
(`effective_valid_counts`, which overrides `p_valid` to 1 in the zero-PR
special case) still satisfies both `i_valid` bounds. -/
theorem valid_counts_bounds (p_fb p_d p_t i_fb i_d : Nat) :
    (calculate_valid_counts p_fb p_d p_t i_fb i_d).1 ≤ p_fb + p_d + p_t ∧
    (calculate_valid_counts p_fb p_d p_t i_fb i_d).2 ≤ i_fb + i_d ∧
    (calculate_valid_counts p_fb p_d p_t i_fb i_d).2 ≤
      4 * (calculate_valid_counts p_fb p_d p_t i_fb i_d).1 ∧
    (effective_valid_counts p_fb p_d p_t i_fb i_d).2 ≤ i_fb + i_d ∧
    (effective_valid_counts p_fb p_d p_t i_fb i_d).2 ≤
      4 * (effective_valid_counts p_fb p_d p_t i_fb i_d).1 := by
  simp only [effective_valid_counts, calculate_valid_counts, zero_pr_guard]
  split
  all_goals simp_all
  all_goals omega

/-- Shape of a score entry in the zero-PR special case: the three PR fields
are zero and the issue side follows `i_valid = min(i_fb + i_d, 4)`; the typo
credit `p_t_at` vanishes because the guard forces `p_t = 0`. -/
theorem participant_entry_special (a : Activities)
    (h : zero_pr_guard (raw_p_fb a) (raw_p_d a) (raw_p_t a)
      (raw_i_fb a) (raw_i_d a)) :
    participant_entry a =
      { featBugPR := 0, documentPR := 0, typoPR := 0,
        featBugIssue := 2 * min (raw_i_fb a) (min (raw_i_fb a + raw_i_d a) 4),
        documentIssue := 1 * (min (raw_i_fb a + raw_i_d a) 4 -
          min (raw_i_fb a) (min (raw_i_fb a + raw_i_d a) 4)),
        total := 2 * min (raw_i_fb a) (min (raw_i_fb a + raw_i_d a) 4) +
          1 * (min (raw_i_fb a + raw_i_d a) 4 -
            min (raw_i_fb a) (min (raw_i_fb a + raw_i_d a) 4)) } := by
  obtain ⟨hp, hd, ht, hi⟩ := h
  simp only [raw_p_fb, raw_p_d, raw_p_t, raw_i_fb, raw_i_d] at hp hd ht hi
  simp only [participant_entry, extract_pr_counts, extract_issue_counts,
    effective_valid_counts, zero_pr_guard, raw_p_fb, raw_p_d, raw_p_t,
    raw_i_fb, raw_i_d, SCORE_WEIGHTS]
  rw [if_pos ⟨hp, hd, ht, hi⟩, if_pos ⟨hp, hd, ht, hi⟩, if_neg (by omega)]
  simp

/-- C1: a participant with `p_fb = p_d = p_t = 0` and `i_fb + i_d > 0` takes
the synthetic-credit path of `calculate_scores`: the valid counts actually
used are `p_valid = 1` and `i_valid = min(i_fb + i_d, 4)`, the three PR
category fields of the entry are `0`, and
`total = 2 * i_fb_at + 1 * i_d_at` with `i_fb_at = min(i_fb, i_valid)` and
`i_d_at = i_valid - i_fb_at`; in particular a participant with `i_f = 1`,
`i_d = 2` and no PRs gets `total = 4` out of `calculate_scores`. -/
theorem synthetic_credit_path (a : Activities)
    (hp : raw_p_fb a = 0) (hd : raw_p_d a = 0) (ht : raw_p_t a = 0)
    (hi : 0 < raw_i_fb a + raw_i_d a) :
    effective_valid_counts (raw_p_fb a) (raw_p_d a) (raw_p_t a)
        (raw_i_fb a) (raw_i_d a) = (1, min (raw_i_fb a + raw_i_d a) 4) ∧
    (participant_entry a).featBugPR = 0 ∧
    (participant_entry a).documentPR = 0 ∧
    (participant_entry a).typoPR = 0 ∧
    (participant_entry a).total =
      2 * min (raw_i_fb a) (min (raw_i_fb a + raw_i_d a) 4) +
        1 * (min (raw_i_fb a + raw_i_d a) 4 -
          min (raw_i_fb a) (min (raw_i_fb a + raw_i_d a) 4)) ∧
    (calculate_scores [("u", ⟨0, 0, 0, 0, 1, 0, 2⟩)] [] 0).map
      (fun p => p.2.total) = [4] := by
  have h : zero_pr_guard (raw_p_fb a) (raw_p_d a) (raw_p_t a)
      (raw_i_fb a) (raw_i_d a) := ⟨hp, hd, ht, hi⟩
  refine ⟨?_, ?_, ?_, ?_, ?_, by decide⟩
  · simp [effective_valid_counts, h]
  · rw [participant_entry_special a h]
  · rw [participant_entry_special a h]
  · rw [participant_entry_special a h]
  · rw [participant_entry_special a h]

/-- C1 witness: the hypotheses hold for the participant with one feature
issue and two documentation issues and no PRs, and the theorem applies. -/
theorem synthetic_credit_path_witness :
    (raw_p_fb ⟨0, 0, 0, 0, 1, 0, 2⟩ = 0 ∧ raw_p_d ⟨0, 0, 0, 0, 1, 0, 2⟩ = 0 ∧
      raw_p_t ⟨0, 0, 0, 0, 1, 0, 2⟩ = 0 ∧
      0 < raw_i_fb ⟨0, 0, 0, 0, 1, 0, 2⟩ + raw_i_d ⟨0, 0, 0, 0, 1, 0, 2⟩) ∧
    (participant_entry ⟨0, 0, 0, 0, 1, 0, 2⟩).total =
      2 * min (raw_i_fb ⟨0, 0, 0, 0, 1, 0, 2⟩)
          (min (raw_i_fb ⟨0, 0, 0, 0, 1, 0, 2⟩ + raw_i_d ⟨0, 0, 0, 0, 1, 0, 2⟩) 4) +
        1 * (min (raw_i_fb ⟨0, 0, 0, 0, 1, 0, 2⟩ + raw_i_d ⟨0, 0, 0, 0, 1, 0, 2⟩) 4 -
          min (raw_i_fb ⟨0, 0, 0, 0, 1, 0, 2⟩)
            (min (raw_i_fb ⟨0, 0, 0, 0, 1, 0, 2⟩ + raw_i_d ⟨0, 0, 0, 0, 1, 0, 2⟩) 4)) :=
  ⟨⟨rfl, rfl, rfl, by decide⟩,
    (synthetic_credit_path ⟨0, 0, 0, 0, 1, 0, 2⟩ rfl rfl rfl (by decide)).2.2.2.2.1⟩

/-- C7: whenever the zero-PR special-case branch is taken, the sub-expression
`p_t_at = 1 if p_t > 0 else 0` evaluates to `0` (the guard already forced
`p_t = 0`), so the typo-PR term contributes nothing: the entry's typo field
is `0` and its total is exactly the sum of the two issue fields. -/
theorem typo_credit_unreachable (a : Activities)
    (h : zero_pr_guard (raw_p_fb a) (raw_p_d a) (raw_p_t a)
      (raw_i_fb a) (raw_i_d a)) :
    (if 0 < raw_p_t a then (1 : Nat) else 0) = 0 ∧
    (participant_entry a).typoPR = 0 ∧
    (participant_entry a).total =
      (participant_entry a).featBugIssue + (participant_entry a).documentIssue := by
  have ht : raw_p_t a = 0 := h.2.2.1
  refine ⟨by simp [ht], ?_, ?_⟩
  · rw [participant_entry_special a h]
  · rw [participant_entry_special a h]

/-- C7 witness: the guard holds for the participant with a single feature
issue and nothing else, and the theorem applies there. -/
theorem typo_credit_unreachable_witness :
    zero_pr_guard (raw_p_fb ⟨0, 0, 0, 0, 1, 0, 0⟩) (raw_p_d ⟨0, 0, 0, 0, 1, 0, 0⟩)
        (raw_p_t ⟨0, 0, 0, 0, 1, 0, 0⟩) (raw_i_fb ⟨0, 0, 0, 0, 1, 0, 0⟩)
        (raw_i_d ⟨0, 0, 0, 0, 1, 0, 0⟩) ∧
      (participant_entry ⟨0, 0, 0, 0, 1, 0, 0⟩).typoPR = 0 :=
  ⟨⟨rfl, rfl, rfl, by decide⟩,
    (typo_credit_unreachable ⟨0, 0, 0, 0, 1, 0, 0⟩ ⟨rfl, rfl, rfl, by decide⟩).2.1⟩

/-- C10: a participant with zero PR activity of any kind has `total ≤ 8`,
however many issues they filed: in the synthetic path `i_valid` is capped at
`4` and `total = 2 * i_fb_at + 1 * i_d_at ≤ 2 * i_valid ≤ 8`; with no issue
activity either, the ordinary path yields `total = 0`. -/
theorem zero_pr_total_le_eight (a : Activities)
    (hp : raw_p_fb a = 0) (hd : raw_p_d a = 0) (ht : raw_p_t a = 0) :
    (participant_entry a).total ≤ 8 := by
  by_cases hi : 0 < raw_i_fb a + raw_i_d a
  · rw [participant_entry_special a ⟨hp, hd, ht, hi⟩]
    simp only []
    omega
  · have hz : raw_i_fb a + raw_i_d a = 0 := by omega
    simp only [raw_p_fb, raw_p_d, raw_p_t, raw_i_fb, raw_i_d] at hp hd ht hz
    have hg : ¬ zero_pr_guard (a.p_enhancement + a.p_bug)
        ( Activities.p_documentation a) a.p_typo (a.i_enhancement + a.i_bug)
        ( Activities.i_documentation a) := by
      simp only [zero_pr_guard]
      omega
    simp only [participant_entry, extract_pr_counts, extract_issue_counts,
      effective_valid_counts, calculate_valid_counts,
      calculate_adjusted_counts, calculate_total_score, create_score_dict,
      SCORE_WEIGHTS, if_neg hg]
    omega

/-- C10 witness: a PR-less participant with fifteen issues still totals at
most 8 (here exactly 8). -/
theorem zero_pr_total_le_eight_witness :
    (raw_p_fb ⟨0, 0, 0, 0, 5, 5, 5⟩ = 0 ∧ raw_p_d ⟨0, 0, 0, 0, 5, 5, 5⟩ = 0 ∧
      raw_p_t ⟨0, 0, 0, 0, 5, 5, 5⟩ = 0) ∧
    (participant_entry ⟨0, 0, 0, 0, 5, 5, 5⟩).total ≤ 8 :=
  ⟨⟨rfl, rfl, rfl⟩, zero_pr_total_le_eight ⟨0, 0, 0, 0, 5, 5, 5⟩ rfl rfl rfl⟩

/-- C9: `calculate_averages` on an empty score map returns the zero-filled
entry (all five category fields, `total` and `rate` equal to `0`); the
output type `AverageEntry` carries no `rank` field, and the function is
total, so no error is possible. -/
theorem averages_empty :
    calculate_averages [] =
      { featBugPR := 0, documentPR := 0, typoPR := 0, featBugIssue := 0,
        documentIssue := 0, total := 0, rate := 0 } := rfl

/-- The `last_score` update of the ranking loop always leaves the current
total behind, whether or not it differed from the previous one. -/
theorem last_score_update (t : Nat) (last : Option Nat) :
    (if some t ≠ last then some t else last) = some t := by
  split
  · rfl
  · rename_i h
    exact (not_not.mp h).symm

/-- `assign_ranks` decorates the entries in place: the totals come out in
the same order they went in. -/
theorem assign_ranks_total_map (s : List (String × RatedEntry))
    (c r : Nat) (l : Option Nat) :
    (assign_ranks s c r l).map (fun z => z.2.total) =
      s.map (fun y => y.2.total) := by
  induction s generalizing c r l with
  | nil => rfl
  | cons head rest ih =>
    obtain ⟨u, e⟩ := head
    simp only [assign_ranks, List.map_cons, ih]

/-- Counting by a predicate on the total is unchanged by `assign_ranks`. -/
theorem assign_ranks_countP (s : List (String × RatedEntry))
    (c r : Nat) (l : Option Nat) (g : Nat → Bool) :
    (assign_ranks s c r l).countP (fun z => g z.2.total) =
      s.countP (fun y => g y.2.total) := by
  have h := congrArg (List.countP g) (assign_ranks_total_map s c r l)
  rwa [List.countP_map, List.countP_map] at h

/-- Invariant of the ranking loop: on a descending-sorted list, every entry
receives rank `1 + (number of entries with a strictly greater total)`.
`full = p ++ s` where `p` is the already-processed prefix; `last`/`current`
carry the loop state as established by that prefix. -/
theorem assign_ranks_rank_eq (s : List (String × RatedEntry)) :
    ∀ (p full : List (String × RatedEntry)) (current : Nat)
      (last : Option Nat),
      full = p ++ s → full.Pairwise rank_order →
      ((p = [] ∧ last = none) ∨
        (∃ x pre, p = pre ++ [x] ∧ last = some x.2.total ∧
          current = 1 + full.countP (fun y => x.2.total < y.2.total))) →
      ∀ z ∈ assign_ranks s p.length current last,
        z.2.rank = 1 + full.countP (fun y => z.2.total < y.2.total) := by
  induction s with
  | nil =>
    intro p full current last _ _ _ z hz
    simp [assign_ranks] at hz
  | cons head rest ih =>
    intro p full current last hfull hsort hinv z hz
    obtain ⟨u, e⟩ := head
    have hpairs : List.Pairwise rank_order ((u, e) :: rest) :=
      (List.pairwise_append.mp (hfull ▸ hsort)).2.1
    have hcross : ∀ a ∈ p, ∀ b ∈ (u, e) :: rest, rank_order a b :=
      (List.pairwise_append.mp (hfull ▸ hsort)).2.2
    -- the rank handed to the head entry
    have hkey : (if some e.total ≠ last then p.length + 1 else current) =
        1 + full.countP (fun y => e.total < y.2.total) := by
      by_cases hne : some e.total ≠ last
      · rw [if_pos hne]
        have hzero : List.countP (fun y => decide (e.total < y.2.total))
            ((u, e) :: rest) = 0 := by
          rw [List.countP_eq_zero]
          intro y hy
          rcases List.mem_cons.mp hy with hy1 | hy2
          · subst hy1; simp
          · have hle : y.2.total ≤ e.total :=
              (List.pairwise_cons.mp hpairs).1 y hy2
            simp only [decide_eq_true_eq]
            omega
        have hfullct : List.countP (fun y => decide (e.total < y.2.total)) p
            = p.length := by
          rw [List.countP_eq_length]
          intro y hy
          rcases hinv with ⟨hp, _⟩ | ⟨x, pre, hpx, hlast, _⟩
          · subst hp; cases hy
          · have hex : e.total ≠ x.2.total := by
              intro hcontra
              exact hne (by rw [hlast, hcontra])
            -- x precedes the head in sorted order, so e.total ≤ x.total < y
            have hxmem : x ∈ p := by
              rw [hpx]
              exact List.mem_append_right pre (List.mem_singleton.mpr rfl)
            have hxe : e.total ≤ x.2.total :=
              hcross x hxmem (u, e) (List.mem_cons_self _ _)
            rw [hpx] at hy
            rcases List.mem_append.mp hy with hy1 | hy2
            · have hpp : List.Pairwise rank_order p :=
                (List.pairwise_append.mp (hfull ▸ hsort)).1
              rw [hpx] at hpp
              have hyx : x.2.total ≤ y.2.total :=
                (List.pairwise_append.mp hpp).2.2 y hy1 x
                  (List.mem_singleton.mpr rfl)
              simp only [decide_eq_true_eq]
              omega
            · have hyeq : y = x := List.mem_singleton.mp hy2
              subst hyeq
              simp only [decide_eq_true_eq]
              omega
        rw [hfull, List.countP_append, hzero, hfullct]
        omega
      · rw [if_neg hne]
        have heq : some e.total = last := not_not.mp hne
        rcases hinv with ⟨_, hl⟩ | ⟨x, pre, hpx, hlast, hcur⟩
        · rw [hl] at heq; cases heq
        · have : e.total = x.2.total := by
            rw [hlast] at heq
            exact Option.some.inj heq
          rw [hcur, this]
    simp only [assign_ranks, last_score_update, List.mem_cons] at hz
    rcases hz with rfl | hz
    · exact hkey
    · have ihx := ih (p ++ [(u, e)]) full
        (if some e.total ≠ last then p.length + 1 else current)
        (some e.total) (by rw [hfull, List.append_assoc]; rfl) hsort
        (Or.inr ⟨(u, e), p, rfl, rfl, by rw [hkey]⟩)
      rw [show (p ++ [(u, e)]).length = p.length + 1 by simp] at ihx
      exact ihx z hz

/-- Every entry of `calculate_scores` output carries rank
`1 + (number of output entries with a strictly greater total)`. -/
theorem calculate_scores_rank_eq (participants : List (String × Activities))
    (user_info : List (String × String)) (min_contributions : Nat) :
    ∀ z ∈ calculate_scores participants user_info min_contributions,
      z.2.rank = 1 + (calculate_scores participants user_info
        min_contributions).countP (fun y => z.2.total < y.2.total) := by
  intro z hz
  simp only [calculate_scores, finalize_scores] at hz ⊢
  rw [assign_ranks_countP _ _ _ _ (fun t => decide (z.2.total < t))]
  exact assign_ranks_rank_eq _ [] _ 0 none rfl
    (List.sorted_insertionSort rank_order _) (Or.inl ⟨rfl, rfl⟩) z hz

/-- C4: the output of `calculate_scores` carries competition ("1224") ranks:
a strictly greater total never gets a larger rank, equal totals get equal
ranks, and each entry's rank is `1` plus the number of returned participants
with a strictly greater total. -/
theorem competition_ranking (participants : List (String × Activities))
    (user_info : List (String × String)) (min_contributions : Nat)
    (x y : String × FinalEntry)
    (hx : x ∈ calculate_scores participants user_info min_contributions)
    (hy : y ∈ calculate_scores participants user_info min_contributions) :
    (y.2.total < x.2.total → x.2.rank ≤ y.2.rank) ∧
    (x.2.total = y.2.total → x.2.rank = y.2.rank) ∧
    x.2.rank = 1 + (calculate_scores participants user_info
      min_contributions).countP (fun z => x.2.total < z.2.total) := by
  have hxr := calculate_scores_rank_eq participants user_info
    min_contributions x hx
  have hyr := calculate_scores_rank_eq participants user_info
    min_contributions y hy
  refine ⟨?_, ?_, hxr⟩
  · intro hlt
    rw [hxr, hyr]
    have : (calculate_scores participants user_info
          min_contributions).countP (fun z => decide (x.2.total < z.2.total)) ≤
        (calculate_scores participants user_info
          min_contributions).countP (fun z => decide (y.2.total < z.2.total)) := by
      apply List.countP_mono_left
      intro a _ ha
      simp only [decide_eq_true_eq] at ha ⊢
      omega
    omega
  · intro heq
    rw [hxr, hyr, heq]

/-- C4 witness: on a two-participant input with totals 6 and 4 the theorem
applies, giving rank 1 to the larger total and rank 2 to the smaller. -/
theorem competition_ranking_witness :
    (("a", (⟨⟨⟨6, 0, 0, 0, 0, 6⟩, 60⟩, 1⟩ : FinalEntry)) ∈
        calculate_scores [("a", ⟨2, 0, 0, 0, 0, 0, 0⟩),
          ("b", ⟨0, 0, 2, 0, 0, 0, 0⟩)] [] 0 ∧
      ("b", (⟨⟨⟨0, 4, 0, 0, 0, 4⟩, 40⟩, 2⟩ : FinalEntry)) ∈
        calculate_scores [("a", ⟨2, 0, 0, 0, 0, 0, 0⟩),
          ("b", ⟨0, 0, 2, 0, 0, 0, 0⟩)] [] 0) ∧
    (("a", (⟨⟨⟨6, 0, 0, 0, 0, 6⟩, 60⟩, 1⟩ : FinalEntry)).2.rank ≤
      ("b", (⟨⟨⟨0, 4, 0, 0, 0, 4⟩, 40⟩, 2⟩ : FinalEntry)).2.rank) :=
  ⟨⟨by with_unfolding_all decide, by with_unfolding_all decide⟩,
    (competition_ranking [("a", ⟨2, 0, 0, 0, 0, 0, 0⟩),
        ("b", ⟨0, 0, 2, 0, 0, 0, 0⟩)] [] 0
      ("a", ⟨⟨⟨6, 0, 0, 0, 0, 6⟩, 60⟩, 1⟩)
      ("b", ⟨⟨⟨0, 4, 0, 0, 0, 4⟩, 40⟩, 2⟩)
      (by with_unfolding_all decide) (by with_unfolding_all decide)).1
      (by decide)⟩

/-- Every output pair of `assign_ranks` is an input pair plus a rank. -/
theorem assign_ranks_mem (s : List (String × RatedEntry)) (c r : Nat)
    (l : Option Nat) :
    ∀ z ∈ assign_ranks s c r l, (z.1, z.2.toRatedEntry) ∈ s := by
  induction s generalizing c r l with
  | nil => intro z hz; simp [assign_ranks] at hz
  | cons head rest ih =>
    obtain ⟨u, e⟩ := head
    intro z hz
    simp only [assign_ranks, List.mem_cons] at hz
    rcases hz with rfl | hz
    · exact List.mem_cons_self _ _
    · exact List.mem_cons_of_mem _ (ih _ _ _ z hz)

/-- Every input pair of `assign_ranks` reappears in the output with some
rank attached. -/
theorem assign_ranks_mem_exists (s : List (String × RatedEntry)) (c r : Nat)
    (l : Option Nat) :
    ∀ w ∈ s, ∃ k : Nat, (w.1, FinalEntry.mk w.2 k) ∈ assign_ranks s c r l := by
  induction s generalizing c r l with
  | nil => intro w hw; cases hw
  | cons head rest ih =>
    obtain ⟨u, e⟩ := head
    intro w hw
    rcases List.mem_cons.mp hw with rfl | hw2
    · exact ⟨if some e.total ≠ l then c + 1 else r,
        by simp [assign_ranks]⟩
    · obtain ⟨k, hk⟩ := ih (c + 1)
        (if some e.total ≠ l then c + 1 else r) (some e.total) w hw2
      exact ⟨k, by
        simp only [assign_ranks, last_score_update, List.mem_cons]
        exact Or.inr hk⟩

/-- Entries of the finalized output (without relabeling) come from the rated
list. -/
theorem mem_rated_of_mem_finalize (scores : List (String × ScoreEntry))
    (total_score_sum : Nat) :
    ∀ z ∈ finalize_scores scores total_score_sum [],
      (z.1, z.2.toRatedEntry) ∈ rated_list scores total_score_sum := by
  intro z hz
  simp only [finalize_scores, apply_user_info, List.isEmpty_nil, if_pos] at hz
  have h1 := assign_ranks_mem _ 0 0 none z hz
  exact (List.perm_insertionSort rank_order _).mem_iff.mp h1

/-- Every rated entry appears, with some rank, in the finalized output
(without relabeling). -/
theorem mem_finalize_of_mem_rated (scores : List (String × ScoreEntry))
    (total_score_sum : Nat) :
    ∀ w ∈ rated_list scores total_score_sum,
      ∃ k : Nat, (w.1, FinalEntry.mk w.2 k) ∈
        finalize_scores scores total_score_sum [] := by
  intro w hw
  simp only [finalize_scores, apply_user_info, List.isEmpty_nil, if_pos]
  exact assign_ranks_mem_exists _ 0 0 none w
    ((List.perm_insertionSort rank_order _).mem_iff.mpr hw)

/-- C6: with `user_info` absent, no returned entry has
`total < min_contributions`; every participant with
`total ≥ min_contributions` is present with their score; and (given distinct
usernames) every participant with `total < min_contributions` is absent. -/
theorem min_contributions_filter (participants : List (String × Activities))
    (min_contributions : Nat)
    (hnd : (participants.map Prod.fst).Nodup) :
    (∀ z ∈ calculate_scores participants [] min_contributions,
      min_contributions ≤ z.2.total) ∧
    (∀ p ∈ participants,
      min_contributions ≤ (participant_entry p.2).total →
      ∃ e : FinalEntry,
        (p.1, e) ∈ calculate_scores participants [] min_contributions ∧
          e.total = (participant_entry p.2).total) ∧
    (∀ p ∈ participants,
      (participant_entry p.2).total < min_contributions →
      ∀ e : FinalEntry,
        (p.1, e) ∉ calculate_scores participants [] min_contributions) := by
  refine ⟨?_, ?_, ?_⟩
  · intro z hz
    have h1 := mem_rated_of_mem_finalize _ _ z hz
    simp only [rated_list, List.mem_map] at h1
    obtain ⟨q, hq, hqz⟩ := h1
    have htot : z.2.total = q.2.total := by
      have : z.2.toRatedEntry = RatedEntry.mk q.2
          (round1 (rate_of (grand_total participants) q.2.total)) :=
        (congrArg Prod.snd hqz).symm
      calc z.2.total = z.2.toRatedEntry.total := rfl
        _ = q.2.total := by rw [this]
    rw [htot]
    by_cases hmc : 0 < min_contributions
    · simp only [filtered_scores, if_pos hmc, List.mem_filter,
        decide_eq_true_eq] at hq
      exact hq.2
    · omega
  · intro p hp hle
    have hsc : (p.1, participant_entry p.2) ∈ scored_list participants := by
      simp only [scored_list, List.mem_map]
      exact ⟨p, hp, rfl⟩
    have hfil : (p.1, participant_entry p.2) ∈
        filtered_scores participants min_contributions := by
      by_cases hmc : 0 < min_contributions
      · simp only [filtered_scores, if_pos hmc, List.mem_filter,
          decide_eq_true_eq]
        exact ⟨hsc, hle⟩
      · simpa [filtered_scores, hmc] using hsc
    have hrt : ((p.1, participant_entry p.2).1,
        RatedEntry.mk (p.1, participant_entry p.2).2
          (round1 (rate_of (grand_total participants)
            (p.1, participant_entry p.2).2.total))) ∈
        rated_list (filtered_scores participants min_contributions)
          (grand_total participants) := by
      simp only [rated_list, List.mem_map]
      exact ⟨(p.1, participant_entry p.2), hfil, rfl⟩
    obtain ⟨k, hk⟩ := mem_finalize_of_mem_rated _ _ _ hrt
    exact ⟨_, hk, rfl⟩
  · intro p hp hlt e he
    have h1 := mem_rated_of_mem_finalize _ _ (p.1, e) he
    simp only [rated_list, List.mem_map] at h1
    obtain ⟨q, hq, hqz⟩ := h1
    have hmc : 0 < min_contributions := by omega
    simp only [filtered_scores, if_pos hmc, List.mem_filter,
      decide_eq_true_eq] at hq
    obtain ⟨hqs, hqle⟩ := hq
    simp only [scored_list, List.mem_map] at hqs
    obtain ⟨p', hp', hp'q⟩ := hqs
    have hname : p'.1 = p.1 := by
      have : q.1 = p.1 := congrArg Prod.fst hqz
      rw [← hp'q] at this
      exact this
    have : p' = p := List.inj_on_of_nodup_map hnd hp' hp hname
    subst this
    rw [← hp'q] at hqle
    simp only at hqle
    omega

/-- C6 witness: with threshold 5 over totals 6 and 4, the participant with
total 6 is present in the output with their entry. -/
theorem min_contributions_filter_witness :
    (([("a", (⟨2, 0, 0, 0, 0, 0, 0⟩ : Activities)),
        ("b", ⟨0, 0, 2, 0, 0, 0, 0⟩)].map Prod.fst).Nodup ∧
      ("a", (⟨2, 0, 0, 0, 0, 0, 0⟩ : Activities)) ∈
        [("a", (⟨2, 0, 0, 0, 0, 0, 0⟩ : Activities)),
          ("b", ⟨0, 0, 2, 0, 0, 0, 0⟩)] ∧
      5 ≤ (participant_entry ⟨2, 0, 0, 0, 0, 0, 0⟩).total) ∧
    (∃ e : FinalEntry,
      ("a", e) ∈ calculate_scores [("a", ⟨2, 0, 0, 0, 0, 0, 0⟩),
        ("b", ⟨0, 0, 2, 0, 0, 0, 0⟩)] [] 5 ∧
        e.total = (participant_entry ⟨2, 0, 0, 0, 0, 0, 0⟩).total) :=
  ⟨⟨by decide, by decide, by decide⟩,
    (min_contributions_filter [("a", ⟨2, 0, 0, 0, 0, 0, 0⟩),
        ("b", ⟨0, 0, 2, 0, 0, 0, 0⟩)] 5 (by decide)).2.1
      ("a", ⟨2, 0, 0, 0, 0, 0, 0⟩) (by decide) (by decide)⟩

/-- Rounding to one decimal moves a rational by at most `1/20`. -/
theorem round1_abs (x : ℚ) : |round1 x - x| ≤ 1 / 20 := by
  have hfl : ∀ a : ℚ, Rat.floor a = ⌊a⌋ := by
    intro a
    rw [Rat.floor_def', Rat.floor_def]
  have h1 : ((⌊x * 10 + 1 / 2⌋ : ℤ) : ℚ) ≤ x * 10 + 1 / 2 :=
    Int.floor_le _
  have h2 : x * 10 + 1 / 2 < ((⌊x * 10 + 1 / 2⌋ : ℤ) : ℚ) + 1 :=
    Int.lt_floor_add_one _
  rw [round1, hfl, abs_le]
  constructor
  · linarith
  · linarith

/-- Summing rounded values moves a sum of rationals by at most `1/20` per
element. -/
theorem sum_round1_sub_le (ts : List ℚ) :
    |(ts.map round1).sum - ts.sum| ≤ (ts.length : ℚ) * (1 / 20) := by
  induction ts with
  | nil => simp
  | cons t rest ih =>
    simp only [List.map_cons, List.sum_cons, List.length_cons]
    have h1 := round1_abs t
    have h3 : |round1 t + ((rest.map round1).sum) - (t + rest.sum)| ≤
        |round1 t - t| + |(rest.map round1).sum - rest.sum| := by
      have := abs_add (round1 t - t) ((rest.map round1).sum - rest.sum)
      calc |round1 t + ((rest.map round1).sum) - (t + rest.sum)|
          = |(round1 t - t) + ((rest.map round1).sum - rest.sum)| := by
            ring_nf
        _ ≤ _ := this
    push_cast
    calc |round1 t + ((rest.map round1).sum) - (t + rest.sum)|
        ≤ |round1 t - t| + |(rest.map round1).sum - rest.sum| := h3
      _ ≤ 1 / 20 + (rest.length : ℚ) * (1 / 20) := by
          have := ih
          gcongr
      _ = ((rest.length : ℚ) + 1) * (1 / 20) := by ring

/-- Before rounding, the rates of a list of totals summing to the positive
grand total add up to exactly 100. -/
theorem rate_sum_exact (S : Nat) (hS : 0 < S) (ts : List Nat)
    (hsum : ts.sum = S) :
    (ts.map fun t => rate_of S t).sum = 100 := by
  have hne : (S : ℚ) ≠ 0 := by
    have : (0 : ℚ) < (S : ℚ) := by exact_mod_cast hS
    exact this.ne'
  have hterm : ∀ t : Nat, rate_of S t = 100 / (S : ℚ) * (t : ℚ) := by
    intro t
    simp only [rate_of, if_pos hS]
    ring
  simp only [hterm]
  rw [List.sum_map_mul_left, ← Nat.cast_list_sum, hsum]
  exact div_mul_cancel₀ 100 hne

/-- `assign_ranks` preserves the list of rates, in order. -/
theorem assign_ranks_rate_map (s : List (String × RatedEntry))
    (c r : Nat) (l : Option Nat) :
    (assign_ranks s c r l).map (fun z => z.2.rate) =
      s.map (fun w => w.2.rate) := by
  induction s generalizing c r l with
  | nil => rfl
  | cons head rest ih =>
    obtain ⟨u, e⟩ := head
    simp only [assign_ranks, List.map_cons, ih]

/-- `assign_ranks` preserves the number of entries. -/
theorem assign_ranks_length (s : List (String × RatedEntry))
    (c r : Nat) (l : Option Nat) :
    (assign_ranks s c r l).length = s.length := by
  have h := congrArg List.length (assign_ranks_total_map s c r l)
  rwa [List.length_map, List.length_map] at h

/-- C2 counterexample: with participants totalling 6 and 4 and
`min_contributions = 5`, the grand total (10) is positive but the single
returned rate is 60.0, so the rates sum to 60, not 100 ± 0.1 × 1. -/
theorem rate_sum_counterexample :
    ¬ (|(((calculate_scores [("a", ⟨2, 0, 0, 0, 0, 0, 0⟩),
          ("b", ⟨0, 0, 2, 0, 0, 0, 0⟩)] [] 5).map
            fun z => z.2.rate).sum - 100)| ≤
        ((calculate_scores [("a", ⟨2, 0, 0, 0, 0, 0, 0⟩),
          ("b", ⟨0, 0, 2, 0, 0, 0, 0⟩)] [] 5).length : ℚ) * (1 / 10)) := by
  have hout : calculate_scores [("a", ⟨2, 0, 0, 0, 0, 0, 0⟩),
      ("b", ⟨0, 0, 2, 0, 0, 0, 0⟩)] [] 5 =
      [("a", ⟨⟨⟨6, 0, 0, 0, 0, 6⟩, 60⟩, 1⟩)] := by
    with_unfolding_all rfl
  rw [hout]
  norm_num

/-- C2 amended: when the grand total is positive and no participant falls
below the `min_contributions` threshold (so the filter drops nobody — in
particular when the threshold is 0), the returned rates sum to 100 within
±0.1 per returned participant. -/
theorem rate_sum_within_tolerance
    (participants : List (String × Activities)) (min_contributions : Nat)
    (hpos : 0 < grand_total participants)
    (hall : ∀ p ∈ scored_list participants,
      min_contributions ≤ p.2.total) :
    |(((calculate_scores participants [] min_contributions).map
        fun z => z.2.rate).sum - 100)| ≤
      ((calculate_scores participants [] min_contributions).length : ℚ) *
        (1 / 10) := by
  have hfil : filtered_scores participants min_contributions =
      scored_list participants := by
    by_cases hmc : 0 < min_contributions
    · simp only [filtered_scores, if_pos hmc]
      rw [List.filter_eq_self]
      intro p hp
      exact decide_eq_true (hall p hp)
    · simp [filtered_scores, hmc]
  have hunf : calculate_scores participants [] min_contributions =
      assign_ranks (List.insertionSort rank_order
        (rated_list (scored_list participants) (grand_total participants)))
        0 0 none := by
    rw [calculate_scores, hfil, finalize_scores]
    rfl
  -- the multiset of rates is the rounded rate of each scored total
  have hrates : ((calculate_scores participants [] min_contributions).map
      fun z => z.2.rate).sum =
      ((((scored_list participants).map fun p => p.2.total).map
        fun t => round1 (rate_of (grand_total participants) t)).sum) := by
    rw [hunf, assign_ranks_rate_map]
    have hperm : (List.insertionSort rank_order
        (rated_list (scored_list participants)
          (grand_total participants))).map (fun w => w.2.rate) |>.Perm
        ((rated_list (scored_list participants)
          (grand_total participants)).map (fun w => w.2.rate)) :=
      (List.perm_insertionSort rank_order _).map _
    rw [hperm.sum_eq]
    simp only [rated_list, List.map_map]
    rfl
  have hlen : (calculate_scores participants [] min_contributions).length =
      ((scored_list participants).map fun p => p.2.total).length := by
    rw [hunf, assign_ranks_length,
      (List.perm_insertionSort rank_order _).length_eq]
    simp [rated_list]
  have hexact : ((((scored_list participants).map fun p => p.2.total).map
      fun t => rate_of (grand_total participants) t).sum) = 100 :=
    rate_sum_exact (grand_total participants) hpos _ rfl
  have hbound := sum_round1_sub_le
    ((((scored_list participants).map fun p => p.2.total).map
      fun t => rate_of (grand_total participants) t))
  rw [hexact] at hbound
  rw [List.map_map] at hbound
  have hcomp : (((scored_list participants).map fun p => p.2.total).map
      fun t => round1 (rate_of (grand_total participants) t)) =
      (((scored_list participants).map fun p => p.2.total).map
        (round1 ∘ fun t => rate_of (grand_total participants) t)) := rfl
  rw [hrates, hcomp, hlen]
  have hlen2 : ((((scored_list participants).map fun p => p.2.total).map
      fun t => rate_of (grand_total participants) t).length : ℚ) =
      (((scored_list participants).map fun p => p.2.total).length : ℚ) := by
    rw [List.length_map]
  rw [hlen2] at hbound
  have : (0 : ℚ) ≤ (((scored_list participants).map
      fun p => p.2.total).length : ℚ) := by positivity
  calc |((((scored_list participants).map fun p => p.2.total).map
        (round1 ∘ fun t => rate_of (grand_total participants) t)).sum - 100)|
      ≤ (((scored_list participants).map fun p => p.2.total).length : ℚ) *
        (1 / 20) := hbound
    _ ≤ _ := by
        gcongr
        norm_num

/-- C2 witness: for totals 6 and 4 with threshold 0 the rates are 60 and 40,
summing to 100 exactly, within the 0.2 tolerance for two participants. -/
theorem rate_sum_within_tolerance_witness :
    (0 < grand_total [("a", ⟨2, 0, 0, 0, 0, 0, 0⟩),
        ("b", ⟨0, 0, 2, 0, 0, 0, 0⟩)] ∧
      ∀ p ∈ scored_list [("a", ⟨2, 0, 0, 0, 0, 0, 0⟩),
        ("b", ⟨0, 0, 2, 0, 0, 0, 0⟩)], 0 ≤ p.2.total) ∧
    |(((calculate_scores [("a", ⟨2, 0, 0, 0, 0, 0, 0⟩),
        ("b", ⟨0, 0, 2, 0, 0, 0, 0⟩)] [] 0).map
          fun z => z.2.rate).sum - 100)| ≤
      ((calculate_scores [("a", ⟨2, 0, 0, 0, 0, 0, 0⟩),
        ("b", ⟨0, 0, 2, 0, 0, 0, 0⟩)] [] 0).length : ℚ) * (1 / 10) :=
  ⟨⟨by decide, by decide⟩,
    rate_sum_within_tolerance [("a", ⟨2, 0, 0, 0, 0, 0, 0⟩),
      ("b", ⟨0, 0, 2, 0, 0, 0, 0⟩)] 0 (by decide) (by decide)⟩

/-- A Python-dict insert keeps the key set free of duplicates. -/
theorem dict_insert_nodup {β : Type} (m : List (String × β)) (k : String)
    (v : β) (h : (m.map Prod.fst).Nodup) :
    ((dict_insert m k v).map Prod.fst).Nodup := by
  rw [dict_insert]
  split
  · have : (m.map fun p => if p.1 = k then (k, v) else p).map Prod.fst =
        m.map Prod.fst := by
      rw [List.map_map]
      apply List.map_congr_left
      intro p _
      by_cases hp : p.1 = k
      · simp [hp]
      · simp [hp]
    rw [this]
    exact h
  · rename_i hany
    have hnk : k ∉ m.map Prod.fst := by
      intro hk
      rcases List.mem_map.mp hk with ⟨p, hpm, hpk⟩
      exact hany (List.any_eq_true.mpr ⟨p, hpm, decide_eq_true hpk⟩)
    rw [List.map_append]
    rw [List.nodup_append]
    refine ⟨h, List.nodup_singleton k, ?_⟩
    intro a ha hb
    simp only [List.map_cons, List.map_nil, List.mem_singleton] at hb
    subst hb
    exact hnk ha

/-- In-place update: searching the updated list for the updated key finds
the new value, provided the key was present. -/
theorem find_map_update {β : Type} (m : List (String × β)) (k : String)
    (v : β) (hany : m.any (fun p => p.1 = k) = true) :
    (m.map fun p => if p.1 = k then (k, v) else p).find?
      (fun p => p.1 = k) = some (k, v) := by
  induction m with
  | nil => simp at hany
  | cons q rest ih =>
    by_cases hq : q.1 = k
    · simp [hq]
    · have hrest : rest.any (fun p => decide (p.1 = k)) = true := by
        rcases List.any_eq_true.mp hany with ⟨p, hpm, hpk⟩
        rcases List.mem_cons.mp hpm with rfl | hpm2
        · exact absurd (of_decide_eq_true hpk) hq
        · exact List.any_eq_true.mpr ⟨p, hpm2, hpk⟩
      simp [hq, ih hrest]

/-- In-place update under key `k` does not disturb a search for a different
key `d`. -/
theorem find_map_update_ne {β : Type} (m : List (String × β))
    (k d : String) (v : β) (hdk : d ≠ k) :
    (m.map fun p => if p.1 = k then (k, v) else p).find?
      (fun p => p.1 = d) = m.find? (fun p => p.1 = d) := by
  induction m with
  | nil => rfl
  | cons q rest ih =>
    by_cases hq : q.1 = k
    · have hkd : ¬ (((k, v) : String × β).1 = d) := fun hc => hdk hc.symm
      have hqd : ¬ (q.1 = d) := by
        intro hc
        rw [hq] at hc
        exact hdk hc.symm
      simp only [List.map_cons, List.find?_cons, if_pos hq]
      rw [show (decide (((k, v) : String × β).1 = d)) = false from
        decide_eq_false hkd]
      rw [show (decide (q.1 = d)) = false from decide_eq_false hqd]
      exact ih
    · by_cases hqd : q.1 = d
      · simp only [List.map_cons, List.find?_cons, if_neg hq]
        rw [show (decide (q.1 = d)) = true from decide_eq_true hqd]
      · simp only [List.map_cons, List.find?_cons, if_neg hq]
        rw [show (decide (q.1 = d)) = false from decide_eq_false hqd]
        exact ih

/-- Looking up the freshly-inserted key finds the new value. -/
theorem dict_insert_find_self {β : Type} (m : List (String × β)) (k : String)
    (v : β) :
    (dict_insert m k v).find? (fun p => p.1 = k) = some (k, v) := by
  rw [dict_insert]
  split
  · rename_i hany
    exact find_map_update m k v hany
  · rename_i hany
    rw [List.find?_append]
    have hnone : m.find? (fun p => p.1 = k) = none := by
      rw [List.find?_eq_none]
      intro x hx hxk
      exact hany (List.any_eq_true.mpr ⟨x, hx, hxk⟩)
    rw [hnone]
    simp

/-- Inserting under a different key leaves a lookup unchanged. -/
theorem dict_insert_find_ne {β : Type} (m : List (String × β))
    (k d : String) (v : β) (hdk : d ≠ k) :
    (dict_insert m k v).find? (fun p => p.1 = d) =
      m.find? (fun p => p.1 = d) := by
  rw [dict_insert]
  split
  · exact find_map_update_ne m k d v hdk
  · rw [List.find?_append]
    have h1 : (([(k, v)] : List (String × β)).find?
        (fun p => p.1 = d)) = none := by
      rw [List.find?_eq_none]
      intro x hx
      rw [List.mem_singleton] at hx
      subst hx
      simp only [decide_eq_true_eq]
      exact fun hc => hdk hc.symm
    rw [h1, Option.or_none]

/-- The relabeling fold keeps its accumulator's key set duplicate-free. -/
theorem relabel_fold_nodup (l : List (String × RatedEntry))
    (f : String → String) :
    ∀ init : List (String × RatedEntry), ((init.map Prod.fst).Nodup) →
      (((l.foldl (fun acc p => dict_insert acc (f p.1) p.2) init)).map
        Prod.fst).Nodup := by
  induction l with
  | nil => intro init h; exact h
  | cons q rest ih =>
    intro init h
    exact ih _ (dict_insert_nodup init (f q.1) q.2 h)

/-- After the relabeling fold, the value found under a display name `d` is
the entry of the last processed participant whose display name is `d` (or
whatever the initial accumulator held, if there is none). -/
theorem relabel_fold_find (l : List (String × RatedEntry))
    (f : String → String) (d : String) :
    ∀ init : List (String × RatedEntry),
      ((l.foldl (fun acc p => dict_insert acc (f p.1) p.2) init).find?
        (fun p => p.1 = d)) =
      (match (l.filter fun p => f p.1 = d).getLast? with
        | some q => some (d, q.2)
        | none => init.find? (fun p => p.1 = d)) := by
  induction l with
  | nil => intro init; rfl
  | cons q rest ih =>
    intro init
    simp only [List.foldl_cons, List.filter_cons]
    by_cases hq : f q.1 = d
    · rw [if_pos (decide_eq_true hq)]
      rw [ih (dict_insert init (f q.1) q.2)]
      cases hrf : (rest.filter fun p => decide (f p.1 = d)).getLast? with
      | some r => -- later colliders win
        have hne : (rest.filter fun p => decide (f p.1 = d)) ≠ [] := by
          intro hc
          rw [hc] at hrf
          cases hrf
        obtain ⟨r0, rs, hr0⟩ := List.exists_cons_of_ne_nil hne
        rw [hr0, List.getLast?_cons_cons, ← hr0, hrf]
      | none =>
        have : (rest.filter fun p => decide (f p.1 = d)) = [] :=
          List.getLast?_eq_none_iff.mp hrf
        rw [this]
        simp only [List.getLast?_singleton]
        rw [hq]
        rw [hq] at *
        exact dict_insert_find_self init d q.2
    · rw [if_neg (by simpa using hq)]
      rw [ih (dict_insert init (f q.1) q.2)]
      cases hrf : (rest.filter fun p => decide (f p.1 = d)).getLast? with
      | some r => rfl
      | none => exact dict_insert_find_ne init (f q.1) d q.2 (Ne.symm hq)

/-- A duplicate-free key set admits at most one entry per key. -/
theorem countP_key_le_one {β : Type} (m : List (String × β)) (d : String)
    (h : (m.map Prod.fst).Nodup) :
    m.countP (fun p => p.1 = d) ≤ 1 := by
  induction m with
  | nil => simp
  | cons q rest ih =>
    simp only [List.map_cons, List.nodup_cons] at h
    obtain ⟨hq, hrest⟩ := h
    by_cases hqd : q.1 = d
    · have hz : rest.countP (fun p => decide (p.1 = d)) = 0 := by
        rw [List.countP_eq_zero]
        intro p hp
        simp only [decide_eq_true_eq]
        intro hc
        exact hq (hqd ▸ hc ▸ List.mem_map_of_mem Prod.fst hp)
      rw [List.countP_cons, hz]
      simp [hqd]
    · rw [List.countP_cons]
      have h3 : (if (decide (q.1 = d)) = true then 1 else 0) = 0 := by
        simp [hqd]
      rw [h3]
      simpa using ih hrest

/-- With a duplicate-free key set, a successful lookup determines the value
of every entry under that key. -/
theorem value_eq_of_mem {β : Type} (m : List (String × β)) (d : String)
    (w v : β) (h : (m.map Prod.fst).Nodup) (hm : (d, w) ∈ m)
    (hf : m.find? (fun p => p.1 = d) = some (d, v)) : w = v := by
  induction m with
  | nil => cases hm
  | cons q rest ih =>
    simp only [List.map_cons, List.nodup_cons] at h
    obtain ⟨hq, hrest⟩ := h
    by_cases hqd : q.1 = d
    · rw [List.find?_cons, show (decide (q.1 = d)) = true from
        decide_eq_true hqd] at hf
      have hqv : q = (d, v) := Option.some.inj hf
      rcases List.mem_cons.mp hm with hh | ht
    -- the found pair is this head, and the key cannot recur in the tail
      · rw [hqv] at hh
        exact (Prod.ext_iff.mp hh).2
      · exfalso
        apply hq
        rw [hqd]
        exact List.mem_map.mpr ⟨(d, w), ht, rfl⟩
    · rw [List.find?_cons, show (decide (q.1 = d)) = false from
        decide_eq_false hqd] at hf
      rcases List.mem_cons.mp hm with hh | ht
      · exact absurd (congrArg Prod.fst hh.symm) hqd
      · exact ih hrest ht hf

/-- `assign_ranks` decorates entries in place: the usernames come out in the
same order they went in. -/
theorem assign_ranks_name_map (s : List (String × RatedEntry))
    (c r : Nat) (l : Option Nat) :
    (assign_ranks s c r l).map (fun z => z.1) = s.map (fun w => w.1) := by
  induction s generalizing c r l with
  | nil => rfl
  | cons head rest ih =>
    obtain ⟨u, e⟩ := head
    simp only [assign_ranks, List.map_cons, ih]

/-- Counting by a predicate on the username is unchanged by `assign_ranks`. -/
theorem assign_ranks_countP_name (s : List (String × RatedEntry))
    (c r : Nat) (l : Option Nat) (g : String → Bool) :
    (assign_ranks s c r l).countP (fun z => g z.1) =
      s.countP (fun w => g w.1) := by
  have h := congrArg (List.countP g) (assign_ranks_name_map s c r l)
  rwa [List.countP_map, List.countP_map] at h

/-- C8: when `user_info` is supplied (non-empty) and the display names
collide, the returned map holds exactly one entry under the collided display
name `d`, and its score entry is the one of the last-processed username
mapping to `d` (processing order = insertion order of `participants`; with
`min_contributions = 0` nobody is dropped beforehand). -/
theorem user_info_collision_last_wins
    (participants : List (String × Activities))
    (user_info : List (String × String)) (d : String)
    (last : String × RatedEntry)
    (hui : user_info ≠ [])
    (hlast : ((rated_list (filtered_scores participants 0)
        (grand_total participants)).filter
        (fun p => dict_get user_info p.1 = d)).getLast? = some last) :
    ((calculate_scores participants user_info 0).countP
      (fun z => z.1 = d)) = 1 ∧
    (∀ z ∈ calculate_scores participants user_info 0,
      z.1 = d → z.2.toRatedEntry = last.2) := by
  have hne : user_info.isEmpty = false := by
    rcases user_info with _ | ⟨q, rest⟩
    · exact absurd rfl hui
    · rfl
  have hrel : apply_user_info user_info
      (rated_list (filtered_scores participants 0)
        (grand_total participants)) =
      (rated_list (filtered_scores participants 0)
        (grand_total participants)).foldl
        (fun acc p => dict_insert acc (dict_get user_info p.1) p.2) [] := by
    rw [apply_user_info, hne]
    simp
  set rl := rated_list (filtered_scores participants 0)
    (grand_total participants) with hrl
  set relabeled := rl.foldl
    (fun acc p => dict_insert acc (dict_get user_info p.1) p.2) []
    with hrelabeled
  have hnodup : (relabeled.map Prod.fst).Nodup :=
    relabel_fold_nodup rl (dict_get user_info) [] List.nodup_nil
  have hfind : relabeled.find? (fun p => p.1 = d) = some (d, last.2) := by
    rw [hrelabeled, relabel_fold_find rl (dict_get user_info) d [], hlast]
  have hout : calculate_scores participants user_info 0 =
      assign_ranks (List.insertionSort rank_order relabeled) 0 0 none := by
    rw [calculate_scores, finalize_scores, hrel]
  constructor
  · rw [hout, assign_ranks_countP_name _ _ _ _ (fun u => decide (u = d))]
    rw [(List.perm_insertionSort rank_order relabeled).countP_eq]
    have hle := countP_key_le_one relabeled d hnodup
    have hpos : 0 < relabeled.countP (fun p => p.1 = d) := by
      rw [List.countP_pos_iff]
      exact ⟨(d, last.2), List.mem_of_find?_eq_some hfind, by simp⟩
    omega
  · intro z hz hzd
    rw [hout] at hz
    have h1 := assign_ranks_mem _ 0 0 none z hz
    have h2 : (z.1, z.2.toRatedEntry) ∈ relabeled :=
      (List.perm_insertionSort rank_order relabeled).mem_iff.mp h1
    rw [hzd] at h2
    exact value_eq_of_mem relabeled d z.2.toRatedEntry last.2 hnodup h2 hfind

/-- C8 witness: usernames `"a"` and `"b"` both display as `"X"`; the output
has a single `"X"` entry and it carries `"b"`'s (the later) score entry. -/
theorem user_info_collision_last_wins_witness :
    (([("a", "X"), ("b", "X")] : List (String × String)) ≠ [] ∧
      ((rated_list (filtered_scores [("a", ⟨2, 0, 0, 0, 0, 0, 0⟩),
          ("b", ⟨0, 0, 2, 0, 0, 0, 0⟩)] 0)
        (grand_total [("a", ⟨2, 0, 0, 0, 0, 0, 0⟩),
          ("b", ⟨0, 0, 2, 0, 0, 0, 0⟩)])).filter
        (fun p => dict_get [("a", "X"), ("b", "X")] p.1 = "X")).getLast? =
        some ("b", ⟨⟨0, 4, 0, 0, 0, 4⟩, 40⟩)) ∧
    ((calculate_scores [("a", ⟨2, 0, 0, 0, 0, 0, 0⟩),
        ("b", ⟨0, 0, 2, 0, 0, 0, 0⟩)] [("a", "X"), ("b", "X")] 0).countP
      (fun z => z.1 = "X")) = 1 :=
  ⟨⟨by decide, by with_unfolding_all rfl⟩,
    (user_info_collision_last_wins [("a", ⟨2, 0, 0, 0, 0, 0, 0⟩),
        ("b", ⟨0, 0, 2, 0, 0, 0, 0⟩)] [("a", "X"), ("b", "X")] "X"
        ("b", ⟨⟨0, 4, 0, 0, 0, 4⟩, 40⟩) (by decide)
        (by with_unfolding_all rfl)).1⟩

end RepoScore
